import Mathlib

/-
Shallow embedding of `src/swahilipot.py` (Swahilipot Hub attachment program):
the `Attachee` and `DivisionManager` classes, their operations, and the
properties stated in the specification.

Numeric modelling: Python numbers are modelled by `ℤ` (ratings, indices) and
`ℚ` (scores, rates).  Python's `round(x, 1)` is modelled by `round1` below,
rounding to one decimal place; the tie-breaking convention is immaterial to
every property proved here.  The submission date produced by
`datetime.date.today()` is passed in as an explicit string parameter, since
the embedding is pure.
-/

namespace Swahilipot

/-- Rounding a rational to one decimal place, the model of Python's
`round(x, 1)`. -/
def round1 (q : ℚ) : ℚ := ((round (q * 10) : ℤ) : ℚ) / 10

/-- Task record, the dict built in `Attachee.assign_task`:
`{'description': ..., 'completed': False, 'deadline': ...}`. -/
structure Task where
  description : String
  completed : Bool
  deadline : Option String
  deriving Repr, DecidableEq

/-- Feedback record, the dict built in `Attachee.add_feedback`:
`{'text': ..., 'rating': ..., 'date': ...}`. -/
structure Feedback where
  text : String
  rating : ℤ
  date : String
  deriving Repr, DecidableEq

/-- State of an `Attachee` instance: `name`, `division`, `tasks`,
`feedback`, `score`. -/
structure Attachee where
  name : String
  division : String
  tasks : List Task
  feedback : List Feedback
  score : ℚ
  deriving Repr, DecidableEq

namespace Attachee

/-- Constructor `Attachee.__init__(name, division)`: empty task and feedback
lists, score 0. -/
def init (name division : String) : Attachee :=
  { name := name, division := division, tasks := [], feedback := [], score := 0 }

/-- Method `assign_task(task_description, deadline=None)`: appends a new task
record with `completed = False`. -/
def assign_task (a : Attachee) (task_description : String)
    (deadline : Option String) : Attachee :=
  { a with tasks := a.tasks ++
      [{ description := task_description, completed := false, deadline := deadline }] }

/-- Internal method `_calculate_score`: score 0 on empty feedback, otherwise
the mean of all ratings rounded to one decimal place. -/
def calculate_score (a : Attachee) : Attachee :=
  if a.feedback = [] then { a with score := 0 }
  else
    { a with score :=
        round1 (((a.feedback.map Feedback.rating).sum : ℚ) / (a.feedback.length : ℚ)) }

/-- Method `add_feedback(feedback_text, rating)`: returns unchanged when the
rating is outside 1..10, otherwise appends a feedback record stamped `today`
and recalculates the score. -/
def add_feedback (a : Attachee) (feedback_text : String) (rating : ℤ)
    (today : String) : Attachee :=
  if ¬ (1 ≤ rating ∧ rating ≤ 10) then a
  else
    calculate_score
      { a with feedback := a.feedback ++
          [{ text := feedback_text, rating := rating, date := today }] }

/-- Helper: apply a function to the element at a given position of a list,
leaving every other element in place (out-of-range positions change
nothing). -/
def modifyAt {α : Type} (f : α → α) : List α → ℕ → List α
  | [], _ => []
  | x :: xs, 0 => f x :: xs
  | x :: xs, n + 1 => x :: modifyAt f xs n

/-- Marking one task completed, the mutation `self.tasks[task_index]['completed'] = True`. -/
def markCompleted (t : Task) : Task := { t with completed := true }

/-- Method `complete_task(task_index)`: sets the completed flag of the task at
a valid index, does nothing on an invalid index. -/
def complete_task (a : Attachee) (task_index : ℤ) : Attachee :=
  if 0 ≤ task_index ∧ task_index < (a.tasks.length : ℤ) then
    { a with tasks := modifyAt markCompleted a.tasks task_index.toNat }
  else a

/-- The dict returned by `get_performance_report`. -/
structure Report where
  name : String
  division : String
  total_tasks : ℕ
  completed_tasks : ℕ
  completion_rate : ℚ
  feedback_count : ℕ
  average_score : ℚ
  deriving Repr, DecidableEq

/-- Method `get_performance_report()`: counts, completion rate (0 on an empty
task list), feedback count and current score. -/
def get_performance_report (a : Attachee) : Report :=
  let completed_tasks := (a.tasks.filter (fun t => t.completed)).length
  let completion_rate : ℚ :=
    if a.tasks ≠ [] then ((completed_tasks : ℚ) / (a.tasks.length : ℚ)) * 100 else 0
  { name := a.name
    division := a.division
    total_tasks := a.tasks.length
    completed_tasks := completed_tasks
    completion_rate := round1 completion_rate
    feedback_count := a.feedback.length
    average_score := a.score }

end Attachee

/-- The class constant `DivisionManager.DIVISIONS`. -/
def DIVISIONS : List String :=
  ["Engineering", "Tech Programs", "Radio Support", "Hub Support"]

/-- State of a `DivisionManager` instance: the dict `self.attachees` mapping a
division name to its ordered sequence of attachees, modelled as an
association list in key-creation order. -/
structure DivisionManager where
  attachees : List (String × List Attachee)
  deriving Repr, DecidableEq

namespace DivisionManager

/-- Dict key-membership test, `division in self.attachees`. -/
def hasKey (d : String) (m : List (String × List Attachee)) : Bool :=
  m.any (fun p => p.1 = d)

/-- Dict read `self.attachees[division]` (first matching key; empty on a
missing key, which never occurs in a reachable state). -/
def getList (d : String) (m : List (String × List Attachee)) : List Attachee :=
  match m.find? (fun p => p.1 = d) with
  | some p => p.2
  | none => []

/-- In-place update of the list stored under a key, the effect of mutating
`self.attachees[division]`. -/
def updList (d : String) (f : List Attachee → List Attachee) :
    List (String × List Attachee) → List (String × List Attachee)
  | [] => []
  | (k, v) :: rest =>
      if k = d then (k, f v) :: rest else (k, v) :: updList d f rest

/-- Constructor `DivisionManager.__init__()`: one empty list per division. -/
def init : DivisionManager :=
  { attachees := DIVISIONS.map (fun division => (division, [])) }

/-- Method `add_attachee(name, division)`: returns the new state and the
boolean result (False and no change on an invalid division). -/
def add_attachee (m : DivisionManager) (name division : String) :
    DivisionManager × Bool :=
  if division ∉ DIVISIONS then (m, false)
  else
    ({ attachees :=
        updList division (fun l => l ++ [Attachee.init name division]) m.attachees },
     true)

/-- Method `assign_division_task(division, task_description)`: assigns the task
to every attachee of the division in sequence order; no action on an
unrecognized division. -/
def assign_division_task (m : DivisionManager) (division task_description : String) :
    DivisionManager :=
  if hasKey division m.attachees = false then m
  else
    { attachees :=
        updList division
          (fun l => l.map (fun a => a.assign_task task_description none)) m.attachees }

/-- Method `get_division_performance(division)`: the ordered list of
performance reports, empty on an unrecognized division.  The Python method
mutates nothing, so the model returns only the output. -/
def get_division_performance (m : DivisionManager) (division : String) :
    List Attachee.Report :=
  if hasKey division m.attachees = false then []
  else (getList division m.attachees).map Attachee.get_performance_report

/-- Observable numeric output of `display_division_summary(division)`: the
division-wide average score it prints, or `none` when it stops early (invalid
division, or no attachees). -/
def display_division_summary_avg (m : DivisionManager) (division : String) :
    Option ℚ :=
  if hasKey division m.attachees = false then none
  else
    let performance_reports := m.get_division_performance division
    if performance_reports = [] then none
    else
      some (round1
        (((performance_reports.map Attachee.Report.average_score).sum) /
          (performance_reports.length : ℚ)))

/-- Mutating one attachee in place through the alias
`self.attachees[d][i]`, as the example usage in the source does. -/
def updAt (m : DivisionManager) (d : String) (i : ℕ) (f : Attachee → Attachee) :
    DivisionManager :=
  { attachees := updList d (fun l => Attachee.modifyAt f l i) m.attachees }

end DivisionManager

/-- One application of a public mutating operation to a `DivisionManager`
state.  Besides the two manager methods, the public surface lets a caller
reach an individual attachee through `self.attachees[division][i]` (as the
example usage in the source does) and invoke its mutating methods, so those
are steps too. -/
inductive Step : DivisionManager → DivisionManager → Prop where
  | add_attachee (m : DivisionManager) (name division : String) :
      Step m (m.add_attachee name division).1
  | assign_division_task (m : DivisionManager) (division task_description : String) :
      Step m (m.assign_division_task division task_description)
  | assign_task (m : DivisionManager) (d : String) (i : ℕ)
      (task_description : String) (deadline : Option String) :
      Step m (m.updAt d i (fun a => a.assign_task task_description deadline))
  | add_feedback (m : DivisionManager) (d : String) (i : ℕ)
      (feedback_text : String) (rating : ℤ) (today : String) :
      Step m (m.updAt d i (fun a => a.add_feedback feedback_text rating today))
  | complete_task (m : DivisionManager) (d : String) (i : ℕ) (task_index : ℤ) :
      Step m (m.updAt d i (fun a => a.complete_task task_index))

/-- Manager states reachable from a fresh `DivisionManager()` through the
public operations. -/
def Reachable (m : DivisionManager) : Prop :=
  Relation.ReflTransGen Step DivisionManager.init m

/-- One application of a public mutating method to an `Attachee`. -/
inductive AStep : Attachee → Attachee → Prop where
  | assign_task (a : Attachee) (task_description : String) (deadline : Option String) :
      AStep a (a.assign_task task_description deadline)
  | add_feedback (a : Attachee) (feedback_text : String) (rating : ℤ) (today : String) :
      AStep a (a.add_feedback feedback_text rating today)
  | complete_task (a : Attachee) (task_index : ℤ) :
      AStep a (a.complete_task task_index)

/-- Attachee states reachable from a fresh `Attachee(name, division)` through
the public operations. -/
def AReachable (a : Attachee) : Prop :=
  ∃ name division, Relation.ReflTransGen AStep (Attachee.init name division) a

/-- Division-invariant of a manager state, claim C9: every stored entry's key
is one of the four divisions and every attachee under key `d` has division
field `d`. -/
def DivisionManager.Inv (m : DivisionManager) : Prop :=
  ∀ p ∈ m.attachees, p.1 ∈ DIVISIONS ∧ ∀ a ∈ p.2, a.division = p.1

/-- Rating/score invariant of an attachee state, claim C10: all stored ratings
lie in 1..10, the score lies in 0..10, and the score is 0 exactly on empty
feedback. -/
def Attachee.AInv (a : Attachee) : Prop :=
  (∀ fb ∈ a.feedback, 1 ≤ fb.rating ∧ fb.rating ≤ 10) ∧
  0 ≤ a.score ∧ a.score ≤ 10 ∧ (a.score = 0 ↔ a.feedback = [])

/-! ### Helper lemmas -/

lemma round_mono_q {x y : ℚ} (h : x ≤ y) : round x ≤ round y := by
  rw [round_eq, round_eq]
  exact Int.floor_mono (by linarith)

lemma one_le_round1 {q : ℚ} (h : 1 ≤ q) : 1 ≤ round1 q := by
  have h10 : (10 : ℚ) ≤ q * 10 := by linarith
  have hr : round (10 : ℚ) ≤ round (q * 10) := round_mono_q h10
  rw [round_ofNat] at hr
  have hc : (10 : ℚ) ≤ ((round (q * 10) : ℤ) : ℚ) := by exact_mod_cast hr
  rw [round1, le_div_iff₀ (by norm_num : (0:ℚ) < 10)]
  linarith

lemma round1_le_ten {q : ℚ} (h : q ≤ 10) : round1 q ≤ 10 := by
  have h10 : q * 10 ≤ (100 : ℚ) := by linarith
  have hr : round (q * 10) ≤ round (100 : ℚ) := round_mono_q h10
  rw [round_ofNat] at hr
  have hc : ((round (q * 10) : ℤ) : ℚ) ≤ 100 := by exact_mod_cast hr
  rw [round1, div_le_iff₀ (by norm_num : (0:ℚ) < 10)]
  linarith

lemma modifyAt_length {α : Type} (f : α → α) (l : List α) (n : ℕ) :
    (Attachee.modifyAt f l n).length = l.length := by
  induction l generalizing n with
  | nil => rfl
  | cons x xs ih => cases n <;> simp [Attachee.modifyAt, ih]

lemma modifyAt_get? {α : Type} (f : α → α) (l : List α) (n j : ℕ) :
    (Attachee.modifyAt f l n).get? j =
      if j = n then (l.get? j).map f else l.get? j := by
  induction l generalizing n j with
  | nil => simp [Attachee.modifyAt]
  | cons x xs ih =>
    cases n with
    | zero =>
      cases j with
      | zero => simp [Attachee.modifyAt]
      | succ j => simp [Attachee.modifyAt]
    | succ n =>
      cases j with
      | zero => simp [Attachee.modifyAt]
      | succ j => simpa [Attachee.modifyAt] using ih n j

lemma modifyAt_forall {α : Type} {P : α → Prop} (f : α → α) (l : List α) (n : ℕ)
    (hl : ∀ a ∈ l, P a) (hf : ∀ a, P a → P (f a)) :
    ∀ a ∈ Attachee.modifyAt f l n, P a := by
  induction l generalizing n with
  | nil => simp [Attachee.modifyAt]
  | cons x xs ih =>
    cases n with
    | zero =>
      intro a ha
      rcases List.mem_cons.mp ha with ha | ha
      · exact ha ▸ hf x (hl x (by simp))
      · exact hl a (List.mem_cons_of_mem _ ha)
    | succ n =>
      intro a ha
      rcases List.mem_cons.mp ha with ha | ha
      · exact ha ▸ hl x (by simp)
      · exact ih n (fun b hb => hl b (List.mem_cons_of_mem _ hb)) a ha

namespace DivisionManager

lemma updList_of_hasKey_eq_false {d : String} {m : List (String × List Attachee)}
    (f : List Attachee → List Attachee) (h : hasKey d m = false) :
    updList d f m = m := by
  induction m with
  | nil => rfl
  | cons p rest ih =>
    obtain ⟨k, v⟩ := p
    simp only [hasKey, List.any_cons, Bool.or_eq_false_iff] at h
    rw [updList, if_neg (by simpa using h.1)]
    rw [ih (by simpa [hasKey] using h.2)]

lemma getList_cons (d k : String) (v : List Attachee)
    (rest : List (String × List Attachee)) :
    getList d ((k, v) :: rest) = if k = d then v else getList d rest := by
  by_cases hk : k = d
  · simp [getList, List.find?, hk]
  · simp [getList, List.find?, hk]

lemma getList_updList_self {d : String} {m : List (String × List Attachee)}
    (f : List Attachee → List Attachee) (h : hasKey d m = true) :
    getList d (updList d f m) = f (getList d m) := by
  induction m with
  | nil => simp [hasKey] at h
  | cons p rest ih =>
    obtain ⟨k, v⟩ := p
    by_cases hk : k = d
    · subst hk
      rw [updList, if_pos rfl, getList_cons, getList_cons, if_pos rfl, if_pos rfl]
    · rw [updList, if_neg hk, getList_cons, getList_cons, if_neg hk, if_neg hk]
      simp only [hasKey, List.any_cons, Bool.or_eq_true_iff] at h
      have hrest : hasKey d rest = true := by
        rcases h with h | h
        · exact absurd (by simpa using h) hk
        · simpa [hasKey] using h
      exact ih hrest

lemma getList_updList_ne {d d' : String} {m : List (String × List Attachee)}
    (f : List Attachee → List Attachee) (h : d' ≠ d) :
    getList d' (updList d f m) = getList d' m := by
  induction m with
  | nil => rfl
  | cons p rest ih =>
    obtain ⟨k, v⟩ := p
    by_cases hk : k = d
    · subst hk
      rw [updList, if_pos rfl, getList_cons, getList_cons,
        if_neg (fun hh => h hh.symm), if_neg (fun hh => h hh.symm)]
    · rw [updList, if_neg hk, getList_cons, getList_cons]
      by_cases hkd : k = d'
      · rw [if_pos hkd, if_pos hkd]
      · rw [if_neg hkd, if_neg hkd]
        exact ih

lemma updList_forall {d : String} {m : List (String × List Attachee)}
    (f : List Attachee → List Attachee) {Q : String × List Attachee → Prop}
    (hm : ∀ p ∈ m, Q p)
    (hf : ∀ v, Q (d, v) → Q (d, f v)) :
    ∀ p ∈ updList d f m, Q p := by
  induction m with
  | nil => simp [updList]
  | cons p rest ih =>
    obtain ⟨k, v⟩ := p
    by_cases hk : k = d
    · subst hk
      rw [updList, if_pos rfl]
      intro q hq
      rcases List.mem_cons.mp hq with hq | hq
      · exact hq ▸ hf v (hm (k, v) (by simp))
      · exact hm q (List.mem_cons_of_mem _ hq)
    · rw [updList, if_neg hk]
      intro q hq
      rcases List.mem_cons.mp hq with hq | hq
      · exact hq ▸ hm (k, v) (by simp)
      · exact ih (fun r hr => hm r (List.mem_cons_of_mem _ hr)) q hq

end DivisionManager

namespace Attachee

lemma calculate_score_feedback (a : Attachee) :
    a.calculate_score.feedback = a.feedback := by
  unfold calculate_score
  split <;> rfl

lemma calculate_score_division (a : Attachee) :
    a.calculate_score.division = a.division := by
  unfold calculate_score
  split <;> rfl

lemma add_feedback_division (a : Attachee) (t : String) (r : ℤ) (d : String) :
    (a.add_feedback t r d).division = a.division := by
  unfold add_feedback
  split
  · rfl
  · rw [calculate_score_division]

lemma complete_task_division (a : Attachee) (i : ℤ) :
    (a.complete_task i).division = a.division := by
  unfold complete_task
  split <;> rfl

lemma assign_task_division (a : Attachee) (s : String) (dl : Option String) :
    (a.assign_task s dl).division = a.division := rfl

end Attachee

/-- Example attachee state used to instantiate the universally quantified
theorems below: one pending task, no feedback yet. -/
def exAttachee : Attachee :=
  { name := "Alice Johnson", division := "Engineering",
    tasks := [{ description := "Fix login page UI bugs", completed := false,
                deadline := some "2023-11-15" }],
    feedback := [], score := 0 }

/-! ### Claim theorems -/

/-- C1: for every attachee and every rating r with 1 ≤ r ≤ 10,
add_feedback appends exactly one feedback record (the count grows by exactly
one) and sets the score to the arithmetic mean of all stored ratings rounded
to one decimal place; recalculating the score of an attachee with empty
feedback yields exactly 0. -/
theorem add_feedback_valid_spec (a : Attachee) (feedback_text : String)
    (rating : ℤ) (today : String) (h1 : 1 ≤ rating) (h2 : rating ≤ 10) :
    (a.add_feedback feedback_text rating today).feedback =
      a.feedback ++ [{ text := feedback_text, rating := rating, date := today }] ∧
    (a.add_feedback feedback_text rating today).feedback.length =
      a.feedback.length + 1 ∧
    (a.add_feedback feedback_text rating today).score =
      round1
        ((((a.add_feedback feedback_text rating today).feedback.map
            Feedback.rating).sum : ℚ) /
          ((a.add_feedback feedback_text rating today).feedback.length : ℚ)) ∧
    (∀ b : Attachee, b.feedback = [] → b.calculate_score.score = 0) := by
  have hcond : ¬¬(1 ≤ rating ∧ rating ≤ 10) := not_not_intro ⟨h1, h2⟩
  have key : a.add_feedback feedback_text rating today =
      Attachee.calculate_score
        { a with feedback := a.feedback ++
            [{ text := feedback_text, rating := rating, date := today }] } := by
    rw [Attachee.add_feedback, if_neg hcond]
  have hne : a.feedback ++
      [({ text := feedback_text, rating := rating, date := today } : Feedback)] ≠ [] := by
    simp
  refine ⟨?_, ?_, ?_, ?_⟩
  · rw [key, Attachee.calculate_score_feedback]
  · rw [key, Attachee.calculate_score_feedback]
    simp
  · rw [key, Attachee.calculate_score_feedback]
    rw [Attachee.calculate_score, if_neg hne]
  · intro b hb
    rw [Attachee.calculate_score, if_pos hb]

/-- Witness for C1 at a concrete attachee and the rating 9. -/
theorem add_feedback_valid_witness :
    (1 ≤ (9 : ℤ) ∧ (9 : ℤ) ≤ 10) ∧
    (exAttachee.add_feedback "Excellent problem-solving skills" 9
        "2023-11-10").feedback.length = exAttachee.feedback.length + 1 :=
  ⟨⟨by decide, by decide⟩,
   (add_feedback_valid_spec exAttachee "Excellent problem-solving skills" 9
      "2023-11-10" (by decide) (by decide)).2.1⟩

/-- C2: for a rating outside 1..10, add_feedback leaves the attachee state
entirely unchanged (no record appended, count unchanged, score untouched, and
no exception: the operation is a total function returning the old state). -/
theorem add_feedback_invalid_spec (a : Attachee) (feedback_text : String)
    (rating : ℤ) (today : String) (h : rating < 1 ∨ 10 < rating) :
    a.add_feedback feedback_text rating today = a := by
  rw [Attachee.add_feedback, if_pos (by omega)]

/-- Witness for C2 at a concrete attachee and the rating 11. -/
theorem add_feedback_invalid_witness :
    ((11 : ℤ) < 1 ∨ 10 < (11 : ℤ)) ∧
    exAttachee.add_feedback "Too generous" 11 "2023-11-10" = exAttachee :=
  ⟨Or.inr (by decide),
   add_feedback_invalid_spec exAttachee "Too generous" 11 "2023-11-10"
     (Or.inr (by decide))⟩

/-- C3: get_performance_report reports completion_rate 0 on an empty task
list (no division by zero occurs: the function is total) and
100 × completed / total rounded to one decimal otherwise; it is a pure
function of the state, its remaining fields read off the state unchanged. -/
theorem get_performance_report_spec (a : Attachee) :
    (a.tasks = [] → a.get_performance_report.completion_rate = 0) ∧
    (a.tasks ≠ [] → a.get_performance_report.completion_rate =
      round1 (100 * ((a.tasks.filter (fun t => t.completed)).length : ℚ) /
        (a.tasks.length : ℚ))) ∧
    a.get_performance_report.total_tasks = a.tasks.length ∧
    a.get_performance_report.completed_tasks =
      (a.tasks.filter (fun t => t.completed)).length ∧
    a.get_performance_report.feedback_count = a.feedback.length ∧
    a.get_performance_report.average_score = a.score := by
  refine ⟨?_, ?_, rfl, rfl, rfl, rfl⟩
  · intro h
    show round1 (if a.tasks ≠ [] then _ else 0) = 0
    rw [if_neg (by simp [h])]
    simp [round1]
  · intro h
    show round1 (if a.tasks ≠ [] then
      (((a.tasks.filter (fun t => t.completed)).length : ℚ) /
        (a.tasks.length : ℚ)) * 100 else 0) = _
    rw [if_pos h]
    congr 1
    ring

/-- Witness for C3 at a concrete attachee with a nonempty task list. -/
theorem get_performance_report_witness :
    exAttachee.tasks ≠ [] ∧
    exAttachee.get_performance_report.completion_rate =
      round1 (100 * ((exAttachee.tasks.filter (fun t => t.completed)).length : ℚ) /
        (exAttachee.tasks.length : ℚ)) :=
  ⟨by decide, (get_performance_report_spec exAttachee).2.1 (by decide)⟩

/-- C4: complete_task with a valid index sets the completed flag of exactly
that task (keeping its description and deadline) and leaves every other task
and every other field unchanged; with an out-of-range index it returns the
state unchanged (and, being a total function, raises no exception). -/
theorem complete_task_spec (a : Attachee) (task_index : ℤ) :
    (0 ≤ task_index ∧ task_index < (a.tasks.length : ℤ) →
      (a.complete_task task_index).tasks.length = a.tasks.length ∧
      (a.complete_task task_index).tasks.get? task_index.toNat =
        (a.tasks.get? task_index.toNat).map Attachee.markCompleted ∧
      (∀ j : ℕ, j ≠ task_index.toNat →
        (a.complete_task task_index).tasks.get? j = a.tasks.get? j) ∧
      (∀ t : Task, Attachee.markCompleted t =
        { description := t.description, completed := true,
          deadline := t.deadline }) ∧
      (a.complete_task task_index).name = a.name ∧
      (a.complete_task task_index).division = a.division ∧
      (a.complete_task task_index).feedback = a.feedback ∧
      (a.complete_task task_index).score = a.score) ∧
    (¬(0 ≤ task_index ∧ task_index < (a.tasks.length : ℤ)) →
      a.complete_task task_index = a) := by
  constructor
  · intro h
    rw [Attachee.complete_task, if_pos h]
    refine ⟨modifyAt_length _ _ _, ?_, ?_, ?_, rfl, rfl, rfl, rfl⟩
    · have hg := modifyAt_get? Attachee.markCompleted a.tasks
        task_index.toNat task_index.toNat
      rw [if_pos rfl] at hg
      exact hg
    · intro j hj
      have hg := modifyAt_get? Attachee.markCompleted a.tasks task_index.toNat j
      rw [if_neg hj] at hg
      exact hg
    · intro t
      rfl
  · intro h
    rw [Attachee.complete_task, if_neg h]

/-- Witness for C4 at a concrete attachee and the index 0. -/
theorem complete_task_witness :
    (0 ≤ (0 : ℤ) ∧ (0 : ℤ) < (exAttachee.tasks.length : ℤ)) ∧
    (exAttachee.complete_task 0).tasks.get? (0 : ℤ).toNat =
      (exAttachee.tasks.get? (0 : ℤ).toNat).map Attachee.markCompleted :=
  ⟨⟨by decide, by decide⟩,
   ((complete_task_spec exAttachee 0).1 ⟨by decide, by decide⟩).2.1⟩

lemma report_average_score (a : Attachee) :
    a.get_performance_report.average_score = a.score := rfl

/-- C5: add_attachee with a division outside the four fixed names returns
false and changes nothing; with a valid division (whose key is present, as in
every state the constructor can produce) it returns true and appends a fresh
attachee with empty tasks, empty feedback and score 0 to exactly that
division's sequence, all other divisions unchanged. -/
theorem add_attachee_spec (m : DivisionManager) (name division : String) :
    (division ∉ DIVISIONS → m.add_attachee name division = (m, false)) ∧
    (division ∈ DIVISIONS → DivisionManager.hasKey division m.attachees = true →
      (m.add_attachee name division).2 = true ∧
      DivisionManager.getList division (m.add_attachee name division).1.attachees =
        DivisionManager.getList division m.attachees ++
          [Attachee.init name division] ∧
      (∀ d, d ≠ division →
        DivisionManager.getList d (m.add_attachee name division).1.attachees =
          DivisionManager.getList d m.attachees) ∧
      (Attachee.init name division).tasks = [] ∧
      (Attachee.init name division).feedback = [] ∧
      (Attachee.init name division).score = 0) := by
  constructor
  · intro h
    rw [DivisionManager.add_attachee, if_pos h]
  · intro h hkey
    rw [DivisionManager.add_attachee, if_neg (not_not_intro h)]
    refine ⟨rfl, ?_, ?_, rfl, rfl, rfl⟩
    · exact DivisionManager.getList_updList_self _ hkey
    · intro d hd
      exact DivisionManager.getList_updList_ne _ hd

/-- Witness for C5 on a fresh manager and the Engineering division. -/
theorem add_attachee_witness :
    ("Engineering" ∈ DIVISIONS ∧
      DivisionManager.hasKey "Engineering" DivisionManager.init.attachees = true) ∧
    (DivisionManager.init.add_attachee "Alice Johnson" "Engineering").2 = true :=
  ⟨⟨by decide, by rfl⟩,
   ((add_attachee_spec DivisionManager.init "Alice Johnson" "Engineering").2
      (by decide) (by rfl)).1⟩

/-- Manager state with one attachee, reached by one add_attachee call. -/
def exManager : DivisionManager :=
  (DivisionManager.init.add_attachee "Alice Johnson" "Engineering").1

/-- C6: assign_division_task with an unrecognized division changes nothing;
with a recognized one it appends exactly one task with the given description
and completed = false to every attachee of that division, in sequence order,
leaving every other division unchanged. -/
theorem assign_division_task_spec (m : DivisionManager)
    (division task_description : String) :
    (DivisionManager.hasKey division m.attachees = false →
      m.assign_division_task division task_description = m) ∧
    (DivisionManager.hasKey division m.attachees = true →
      DivisionManager.getList division
          (m.assign_division_task division task_description).attachees =
        (DivisionManager.getList division m.attachees).map
          (fun a => { a with tasks := a.tasks ++
            [{ description := task_description, completed := false,
               deadline := none }] }) ∧
      (∀ d, d ≠ division →
        DivisionManager.getList d
            (m.assign_division_task division task_description).attachees =
          DivisionManager.getList d m.attachees)) := by
  constructor
  · intro h
    rw [DivisionManager.assign_division_task, if_pos h]
  · intro h
    have hfalse : ¬ (DivisionManager.hasKey division m.attachees = false) := by
      simp [h]
    rw [DivisionManager.assign_division_task, if_neg hfalse]
    refine ⟨?_, ?_⟩
    · exact DivisionManager.getList_updList_self _ h
    · intro d hd
      exact DivisionManager.getList_updList_ne _ hd

/-- Witness for C6 on a one-attachee manager and the Engineering division. -/
theorem assign_division_task_witness :
    DivisionManager.hasKey "Engineering" exManager.attachees = true ∧
    DivisionManager.getList "Engineering"
        (exManager.assign_division_task "Engineering"
          "Review codebase for optimization opportunities").attachees =
      (DivisionManager.getList "Engineering" exManager.attachees).map
        (fun a => { a with tasks := a.tasks ++
          [{ description := "Review codebase for optimization opportunities",
             completed := false, deadline := none }] }) :=
  ⟨by rfl,
   ((assign_division_task_spec exManager "Engineering"
      "Review codebase for optimization opportunities").2 (by rfl)).1⟩

/-- C7: get_division_performance with an unrecognized division returns the
empty list (and, being a total pure function, raises no exception and mutates
nothing); with a recognized one it returns the performance report of each
attachee of the division in sequence order. -/
theorem get_division_performance_spec (m : DivisionManager) (division : String) :
    (DivisionManager.hasKey division m.attachees = false →
      m.get_division_performance division = []) ∧
    (DivisionManager.hasKey division m.attachees = true →
      (m.get_division_performance division).length =
        (DivisionManager.getList division m.attachees).length ∧
      ∀ j : ℕ, (m.get_division_performance division).get? j =
        ((DivisionManager.getList division m.attachees).get? j).map
          Attachee.get_performance_report) := by
  constructor
  · intro h
    rw [DivisionManager.get_division_performance, if_pos h]
  · intro h
    have hfalse : ¬ (DivisionManager.hasKey division m.attachees = false) := by
      simp [h]
    rw [DivisionManager.get_division_performance, if_neg hfalse]
    constructor
    · simp
    · intro j
      simp

/-- Witness for C7: the end-to-end check of the specification, a fresh
manager queried for a nonexistent division. -/
theorem get_division_performance_witness :
    DivisionManager.hasKey "Nonexistent" DivisionManager.init.attachees = false ∧
    DivisionManager.init.get_division_performance "Nonexistent" = [] :=
  ⟨by rfl,
   (get_division_performance_spec DivisionManager.init "Nonexistent").1 (by rfl)⟩

/-- C8: for a recognized division, the division-wide average printed by
display_division_summary is the unweighted mean of the member attachees'
average_score fields (equivalently their score fields, not a mean over raw
ratings) rounded to one decimal place; with zero attachees the method stops
before computing any average. -/
theorem display_division_summary_avg_spec (m : DivisionManager)
    (division : String)
    (h : DivisionManager.hasKey division m.attachees = true) :
    (DivisionManager.getList division m.attachees = [] →
      m.display_division_summary_avg division = none) ∧
    (DivisionManager.getList division m.attachees ≠ [] →
      m.display_division_summary_avg division =
        some (round1
          (((DivisionManager.getList division m.attachees).map
              Attachee.score).sum /
            ((DivisionManager.getList division m.attachees).length : ℚ)))) := by
  have hfalse : ¬ (DivisionManager.hasKey division m.attachees = false) := by
    simp [h]
  have hreports : m.get_division_performance division =
      (DivisionManager.getList division m.attachees).map
        Attachee.get_performance_report := by
    rw [DivisionManager.get_division_performance, if_neg hfalse]
  constructor
  · intro hempty
    rw [DivisionManager.display_division_summary_avg, if_neg hfalse]
    simp [hreports, hempty]
  · intro hne
    rw [DivisionManager.display_division_summary_avg, if_neg hfalse]
    have hmapne : (DivisionManager.getList division m.attachees).map
        Attachee.get_performance_report ≠ [] := by
      simpa using hne
    simp only [hreports, if_neg hmapne]
    rw [List.map_map]
    have hcomp : Attachee.Report.average_score ∘ Attachee.get_performance_report =
        Attachee.score := by
      funext a
      exact report_average_score a
    rw [hcomp, List.length_map]

/-- Manager state holding two Engineering attachees whose scores are 8 and 6,
the specification's concrete division-average example. -/
def exManager2 : DivisionManager :=
  { attachees :=
      [("Engineering",
        [{ name := "Bob Smith", division := "Engineering", tasks := [],
           feedback := [{ text := "Strong work", rating := 8,
                          date := "2023-11-10" }],
           score := 8 },
         { name := "Carol Williams", division := "Engineering", tasks := [],
           feedback := [{ text := "Solid effort", rating := 6,
                          date := "2023-11-10" }],
           score := 6 }]),
       ("Tech Programs", []), ("Radio Support", []), ("Hub Support", [])] }

/-- Witness for C8: two attachees scoring 8 and 6 give division average 7. -/
theorem display_division_summary_avg_witness :
    DivisionManager.hasKey "Engineering" exManager2.attachees = true ∧
    DivisionManager.getList "Engineering" exManager2.attachees ≠ [] ∧
    exManager2.display_division_summary_avg "Engineering" = some 7 := by
  have hne : DivisionManager.getList "Engineering" exManager2.attachees ≠ [] := by
    simp [exManager2, DivisionManager.getList, List.find?]
  refine ⟨rfl, hne, ?_⟩
  have h2 := (display_division_summary_avg_spec exManager2 "Engineering" rfl).2 hne
  rw [h2]
  have hl : DivisionManager.getList "Engineering" exManager2.attachees =
      [{ name := "Bob Smith", division := "Engineering", tasks := [],
         feedback := [{ text := "Strong work", rating := 8,
                        date := "2023-11-10" }],
         score := 8 },
       { name := "Carol Williams", division := "Engineering", tasks := [],
         feedback := [{ text := "Solid effort", rating := 6,
                        date := "2023-11-10" }],
         score := 6 }] := rfl
  rw [hl]
  norm_num [round1, Attachee.score]

lemma inv_updAt {m : DivisionManager} (d : String) (i : ℕ) (f : Attachee → Attachee)
    (hdiv : ∀ a, (f a).division = a.division) (h : m.Inv) :
    (m.updAt d i f).Inv := by
  intro p hp
  refine DivisionManager.updList_forall _ h ?_ p hp
  rintro v ⟨hq1, hq2⟩
  refine ⟨hq1, ?_⟩
  exact modifyAt_forall f v i hq2 (fun a ha => by rw [hdiv]; exact ha)

lemma inv_add_attachee (m : DivisionManager) (name division : String)
    (h : m.Inv) : (m.add_attachee name division).1.Inv := by
  by_cases hdiv : division ∉ DIVISIONS
  · rw [DivisionManager.add_attachee, if_pos hdiv]
    exact h
  · rw [DivisionManager.add_attachee, if_neg hdiv]
    intro p hp
    refine DivisionManager.updList_forall _ h ?_ p hp
    rintro v ⟨hq1, hq2⟩
    refine ⟨hq1, ?_⟩
    intro a ha
    rcases List.mem_append.mp ha with ha | ha
    · exact hq2 a ha
    · rw [List.mem_singleton.mp ha]
      rfl

lemma inv_assign_division_task (m : DivisionManager)
    (division task_description : String) (h : m.Inv) :
    (m.assign_division_task division task_description).Inv := by
  by_cases hkey : DivisionManager.hasKey division m.attachees = false
  · rw [DivisionManager.assign_division_task, if_pos hkey]
    exact h
  · rw [DivisionManager.assign_division_task, if_neg hkey]
    intro p hp
    refine DivisionManager.updList_forall _ h ?_ p hp
    rintro v ⟨hq1, hq2⟩
    refine ⟨hq1, ?_⟩
    intro a ha
    rw [List.mem_map] at ha
    obtain ⟨b, hb, rfl⟩ := ha
    rw [Attachee.assign_task_division]
    exact hq2 b hb

/-- C9: in every manager state reachable through the public operations, every
attachee stored under key d has division field d, and d is one of the four
fixed division names. -/
theorem reachable_inv (m : DivisionManager) (h : Reachable m) :
    DivisionManager.Inv m := by
  induction h with
  | refl =>
    intro p hp
    have hmem : p ∈ DIVISIONS.map (fun division => (division, ([] : List Attachee))) := hp
    rw [List.mem_map] at hmem
    obtain ⟨d, hd, rfl⟩ := hmem
    exact ⟨hd, by simp⟩
  | tail hr hstep ih =>
    cases hstep with
    | add_attachee name division =>
      exact inv_add_attachee _ name division ih
    | assign_division_task division task_description =>
      exact inv_assign_division_task _ division task_description ih
    | assign_task d i task_description deadline =>
      exact inv_updAt d i _ (fun a => Attachee.assign_task_division a _ _) ih
    | add_feedback d i feedback_text rating today =>
      exact inv_updAt d i _ (fun a => Attachee.add_feedback_division a _ _ _) ih
    | complete_task d i task_index =>
      exact inv_updAt d i _ (fun a => Attachee.complete_task_division a _) ih

/-- Witness for C9 at the one-step reachable state adding Alice to
Engineering. -/
theorem reachable_inv_witness :
    Reachable (DivisionManager.init.add_attachee "Alice Johnson" "Engineering").1 ∧
    DivisionManager.Inv
      (DivisionManager.init.add_attachee "Alice Johnson" "Engineering").1 :=
  ⟨Relation.ReflTransGen.single
     (Step.add_attachee DivisionManager.init "Alice Johnson" "Engineering"),
   reachable_inv _
     (Relation.ReflTransGen.single
       (Step.add_attachee DivisionManager.init "Alice Johnson" "Engineering"))⟩

lemma mean_rating_bounds (l : List Feedback) (hne : l ≠ [])
    (hl : ∀ fb ∈ l, 1 ≤ fb.rating ∧ fb.rating ≤ 10) :
    1 ≤ (((l.map Feedback.rating).sum : ℤ) : ℚ) / (l.length : ℚ) ∧
      (((l.map Feedback.rating).sum : ℤ) : ℚ) / (l.length : ℚ) ≤ 10 := by
  have hlen : 0 < l.length := List.length_pos.mpr hne
  have hlenq : (0 : ℚ) < (l.length : ℚ) := by exact_mod_cast hlen
  have hlow : (l.length : ℤ) • (1 : ℤ) ≤ (l.map Feedback.rating).sum := by
    have := List.card_nsmul_le_sum (l.map Feedback.rating) (1 : ℤ) (by
      intro x hx
      rw [List.mem_map] at hx
      obtain ⟨fb, hfb, rfl⟩ := hx
      exact (hl fb hfb).1)
    simpa using this
  have hhigh : (l.map Feedback.rating).sum ≤ (l.map Feedback.rating).length • (10 : ℤ) := by
    refine List.sum_le_card_nsmul (l.map Feedback.rating) (10 : ℤ) ?_
    intro x hx
    rw [List.mem_map] at hx
    obtain ⟨fb, hfb, rfl⟩ := hx
    exact (hl fb hfb).2
  have hlow' : (l.length : ℤ) ≤ (l.map Feedback.rating).sum := by
    simpa using hlow
  have hhigh' : (l.map Feedback.rating).sum ≤ 10 * (l.length : ℤ) := by
    rw [List.length_map] at hhigh
    simpa [smul_eq_mul, mul_comm] using hhigh
  constructor
  · rw [le_div_iff₀ hlenq, one_mul]
    exact_mod_cast hlow'
  · rw [div_le_iff₀ hlenq]
    have : ((l.map Feedback.rating).sum : ℚ) ≤ 10 * (l.length : ℚ) := by
      exact_mod_cast hhigh'
    linarith

lemma ainv_add_feedback (a : Attachee) (feedback_text : String) (rating : ℤ)
    (today : String) (ih : a.AInv) :
    (a.add_feedback feedback_text rating today).AInv := by
  by_cases hval : 1 ≤ rating ∧ rating ≤ 10
  · rw [Attachee.add_feedback, if_neg (not_not_intro hval)]
    set fb : Feedback :=
      { text := feedback_text, rating := rating, date := today } with hfb
    have hne : a.feedback ++ [fb] ≠ [] := by simp
    have hall : ∀ g ∈ a.feedback ++ [fb], 1 ≤ g.rating ∧ g.rating ≤ 10 := by
      intro g hg
      rcases List.mem_append.mp hg with hg | hg
      · exact ih.1 g hg
      · rw [List.mem_singleton.mp hg]
        exact hval
    have hmean := mean_rating_bounds (a.feedback ++ [fb]) hne hall
    have hscore1 : 1 ≤ round1
        ((((a.feedback ++ [fb]).map Feedback.rating).sum : ℚ) /
          ((a.feedback ++ [fb]).length : ℚ)) := one_le_round1 hmean.1
    have hscore10 : round1
        ((((a.feedback ++ [fb]).map Feedback.rating).sum : ℚ) /
          ((a.feedback ++ [fb]).length : ℚ)) ≤ 10 := round1_le_ten hmean.2
    rw [Attachee.calculate_score, if_neg hne]
    have hne0 : round1 ((((a.feedback ++ [fb]).map Feedback.rating).sum : ℚ) /
        ((a.feedback ++ [fb]).length : ℚ)) ≠ 0 := by
      intro h0
      rw [h0] at hscore1
      norm_num at hscore1
    exact ⟨hall, le_trans (by norm_num) hscore1, hscore10,
      Iff.intro (fun h0 => absurd h0 hne0) (fun hc => absurd hc hne)⟩
  · rw [Attachee.add_feedback, if_pos hval]
    exact ih

/-- C10: in every attachee state reachable through the public operations,
every stored feedback record has a rating in 1..10, and the score lies in
0..10, being 0 exactly when there is no feedback. -/
theorem areachable_ainv (a : Attachee) (h : AReachable a) : a.AInv := by
  obtain ⟨name, division, hr⟩ := h
  induction hr with
  | refl =>
    refine ⟨?_, le_refl 0, by norm_num [Attachee.init], by simp [Attachee.init]⟩
    intro fb hfb
    simp [Attachee.init] at hfb
  | tail hr' hstep ih =>
    cases hstep with
    | assign_task task_description deadline =>
      exact ih
    | complete_task task_index =>
      rw [Attachee.complete_task]
      split
      · exact ih
      · exact ih
    | add_feedback feedback_text rating today =>
      exact ainv_add_feedback _ feedback_text rating today ih

/-- Witness for C10 at the one-step reachable state recording one rating 9
feedback on a fresh attachee. -/
theorem areachable_ainv_witness :
    AReachable ((Attachee.init "Alice Johnson" "Engineering").add_feedback
      "Excellent problem-solving skills" 9 "2023-11-10") ∧
    ((Attachee.init "Alice Johnson" "Engineering").add_feedback
      "Excellent problem-solving skills" 9 "2023-11-10").AInv :=
  ⟨⟨"Alice Johnson", "Engineering",
    Relation.ReflTransGen.single
      (AStep.add_feedback (Attachee.init "Alice Johnson" "Engineering")
        "Excellent problem-solving skills" 9 "2023-11-10")⟩,
   areachable_ainv _
     ⟨"Alice Johnson", "Engineering",
      Relation.ReflTransGen.single
        (AStep.add_feedback (Attachee.init "Alice Johnson" "Engineering")
          "Excellent problem-solving skills" 9 "2023-11-10")⟩⟩

end Swahilipot
